import Mathlib

/-!
Verification development for the numba-mlir parallel-loop lowering pipeline.

The definitions below are a shallow embedding of the C++ sources:
* `ParallelToTbb` / `HoistBufferAllocs` / `getLoopInfo` / `canResultEscape`
  (pipelines/ParallelToTbb.cpp),
* `LowerParallel`, `fixFuncSig`, `ReturnOpLowering`,
  `genToMemrefConversionFuncName`, `getToMemrefConversionFunc`
  (pipelines/LowerToLlvm.cpp),
* `ExecutionEngine::loadModule` / `ExecutionEngine::lookup`
  (ExecutionEngine.cpp).

Machine integers of width `w` are modelled as naturals below `2 ^ w`;
the arithmetic combiner operations are modelled exactly as the
corresponding `arith` dialect operations behave on `w`-bit values.
-/

namespace NumbaMlir

/-! ## Integer reduction combiners

`mlir::arith::getNeutralElement` derives a neutral element from a single
combining operation.  These are the integer operation kinds it handles,
together with their neutral elements.  A `w`-bit value is a natural
number `< 2 ^ w`; signed operations act on the two's-complement
decoding `toSigned`. -/

/-- Two's-complement signed decoding of a `w`-bit pattern. -/
def toSigned (w a : Nat) : Int :=
  if a < 2 ^ (w - 1) then (a : Int) else (a : Int) - 2 ^ w

/-- The integer combining operations for which `arith::getNeutralElement`
can derive a neutral element. -/
inductive IntReduceKind where
  | addi | muli | andi | ori | xori | maxsi | minsi | maxui | minui
deriving DecidableEq, Repr

/-- Semantics of a combining operation on `w`-bit values. -/
def applyKind (w : Nat) : IntReduceKind → Nat → Nat → Nat
  | .addi => fun a b => (a + b) % 2 ^ w
  | .muli => fun a b => (a * b) % 2 ^ w
  | .andi => fun a b => a &&& b
  | .ori => fun a b => a ||| b
  | .xori => fun a b => a ^^^ b
  | .maxsi => fun a b => if toSigned w a ≤ toSigned w b then b else a
  | .minsi => fun a b => if toSigned w b ≤ toSigned w a then b else a
  | .maxui => fun a b => Nat.max a b
  | .minui => fun a b => Nat.min a b

/-- The neutral element `arith::getNeutralElement` produces for each
integer combining operation (bit pattern, as a `w`-bit value). -/
def neutralElement (w : Nat) : IntReduceKind → Nat
  | .addi => 0
  | .muli => 1
  | .andi => 2 ^ w - 1
  | .ori => 0
  | .xori => 0
  | .maxsi => 2 ^ (w - 1)
  | .minsi => 2 ^ (w - 1) - 1
  | .maxui => 0
  | .minui => 2 ^ w - 1

theorem two_pow_split (w : Nat) (hw : 0 < w) : 2 ^ w = 2 ^ (w - 1) * 2 := by
  cases w with
  | zero => exact absurd hw (lt_irrefl 0)
  | succ n => simp only [Nat.succ_sub_one]; exact pow_succ 2 n

theorem cast_two_pow (n : Nat) : (((2 : Nat) ^ n : Nat) : Int) = (2 : Int) ^ n := by
  push_cast
  ring

theorem toSigned_bounds (w : Nat) (hw : 0 < w) {a : Nat} (ha : a < 2 ^ w) :
    -(((2 : Nat) ^ (w - 1) : Nat) : Int) ≤ toSigned w a ∧
      toSigned w a < (((2 : Nat) ^ (w - 1) : Nat) : Int) := by
  have h2 := two_pow_split w hw
  have hP : 0 < 2 ^ (w - 1) := Nat.pos_pow_of_pos _ (by norm_num)
  have hc2 := cast_two_pow w
  unfold toSigned
  split <;> constructor <;> omega

theorem toSigned_inj (w : Nat) {a b : Nat} (ha : a < 2 ^ w) (hb : b < 2 ^ w)
    (h : toSigned w a = toSigned w b) : a = b := by
  have hc2 := cast_two_pow w
  unfold toSigned at h
  split at h <;> split at h <;> omega

theorem neutralElement_lt (w : Nat) (hw : 0 < w) (k : IntReduceKind) :
    neutralElement w k < 2 ^ w := by
  have h2 := two_pow_split w hw
  have hP : 0 < 2 ^ (w - 1) := Nat.pos_pow_of_pos _ (by norm_num)
  cases k <;> simp only [neutralElement] <;> omega

theorem applyKind_lt (w : Nat) (k : IntReduceKind) {a b : Nat}
    (ha : a < 2 ^ w) (hb : b < 2 ^ w) : applyKind w k a b < 2 ^ w := by
  have hpos : 0 < 2 ^ w := Nat.pos_pow_of_pos _ (by norm_num)
  cases k with
  | addi => exact Nat.mod_lt _ hpos
  | muli => exact Nat.mod_lt _ hpos
  | andi => exact lt_of_le_of_lt Nat.and_le_left ha
  | ori => exact Nat.or_lt_two_pow ha hb
  | xori => exact Nat.xor_lt_two_pow ha hb
  | maxsi => simp only [applyKind]; split <;> assumption
  | minsi => simp only [applyKind]; split <;> assumption
  | maxui => exact Nat.max_lt.mpr ⟨ha, hb⟩
  | minui => exact lt_of_le_of_lt (Nat.min_le_left _ _) ha

theorem applyKind_assoc (w : Nat) (k : IntReduceKind) (a b c : Nat) :
    applyKind w k (applyKind w k a b) c = applyKind w k a (applyKind w k b c) := by
  cases k with
  | addi =>
      simp only [applyKind]
      rw [Nat.mod_add_mod, Nat.add_mod_mod, Nat.add_assoc]
  | muli =>
      simp only [applyKind]
      rw [Nat.mod_mul_mod, Nat.mul_mod_mod, Nat.mul_assoc]
  | andi => exact Nat.and_assoc a b c
  | ori => exact Nat.or_assoc a b c
  | xori => exact Nat.xor_assoc a b c
  | maxsi =>
      simp only [applyKind]
      split_ifs <;> first | rfl | omega
  | minsi =>
      simp only [applyKind]
      split_ifs <;> first | rfl | omega
  | maxui => exact Nat.max_assoc a b c
  | minui => exact Nat.min_assoc a b c

theorem applyKind_neutral_right (w : Nat) (hw : 0 < w) (k : IntReduceKind)
    {a : Nat} (ha : a < 2 ^ w) : applyKind w k a (neutralElement w k) = a := by
  have h2 := two_pow_split w hw
  have hP : 0 < 2 ^ (w - 1) := Nat.pos_pow_of_pos _ (by norm_num)
  cases k with
  | addi => simp only [applyKind, neutralElement, Nat.add_zero]; exact Nat.mod_eq_of_lt ha
  | muli => simp only [applyKind, neutralElement, Nat.mul_one]; exact Nat.mod_eq_of_lt ha
  | andi =>
      simp only [applyKind, neutralElement]
      apply Nat.eq_of_testBit_eq
      intro i
      rw [Nat.testBit_land, Nat.testBit_two_pow_sub_one]
      by_cases hi : i < w
      · simp [hi]
      · have hbit : a.testBit i = false := by
          apply Nat.testBit_eq_false_of_lt
          calc a < 2 ^ w := ha
            _ ≤ 2 ^ i := Nat.pow_le_pow_right (by norm_num) (by omega)
        simp [hi, hbit]
  | ori => simp only [applyKind, neutralElement, Nat.or_zero]
  | xori => simp only [applyKind, neutralElement, Nat.xor_zero]
  | maxsi =>
      have hneu : neutralElement w .maxsi < 2 ^ w := neutralElement_lt w hw _
      have hn : toSigned w (2 ^ (w - 1)) = -(((2 : Nat) ^ (w - 1) : Nat) : Int) := by
        unfold toSigned
        rw [if_neg (lt_irrefl _)]
        have hc2 := cast_two_pow w
        omega
      simp only [applyKind, neutralElement]
      split
      · next h =>
          rw [hn] at h
          have hb := toSigned_bounds w hw ha
          have heq : toSigned w a = toSigned w (2 ^ (w - 1)) := by rw [hn]; omega
          exact (toSigned_inj w ha hneu heq).symm
      · rfl
  | minsi =>
      have hneu : neutralElement w .minsi < 2 ^ w := neutralElement_lt w hw _
      have hn : toSigned w (2 ^ (w - 1) - 1) = (((2 : Nat) ^ (w - 1) - 1 : Nat) : Int) := by
        unfold toSigned
        rw [if_pos (by omega)]
      simp only [applyKind, neutralElement]
      split
      · next h =>
          rw [hn] at h
          have hb := toSigned_bounds w hw ha
          have heq : toSigned w a = toSigned w (2 ^ (w - 1) - 1) := by rw [hn]; omega
          exact (toSigned_inj w ha hneu heq).symm
      · rfl
  | maxui => exact Nat.max_eq_left (Nat.zero_le a)
  | minui =>
      simp only [applyKind, neutralElement]
      exact Nat.min_eq_left (by omega)

/-! ## The ParallelToTbb rewrite: executable semantics

`ParallelToTbb::matchAndRewrite` replaces an `scf.parallel` loop carrying
reductions by
1. one per-thread reduction buffer (a `memref.alloca` of extent
   `maxConcurrency`) per reduction result,
2. a sequential init loop over `[0, maxConcurrency)` storing the neutral
   element into every slot,
3. the explicit-parallel construct whose body, executing for thread `t`
   over its slice of the iteration space, loads slot `t`, runs the cloned
   loop over the slice with the loaded value as its init value, and stores
   the result back into slot `t`,
4. a sequential combine loop over `[0, maxConcurrency)` in ascending slot
   order folding each slot into the accumulator with the reduce region.

The runtime contract distributes the iteration space as one contiguous,
non-overlapping slice per thread index; `slices` lists those slices in
iteration order, so `slices.flatten` is the original iteration order. -/

/-- Sequential reduction-accumulation over a list of iteration indices:
the semantics of the original loop, and of each cloned per-slice loop. -/
def seqFold {α ι : Type} (comb : α → α → α) (init : α) (body : ι → α)
    (idxs : List ι) : α :=
  idxs.foldl (fun acc i => comb acc (body i)) init

/-- `memref.store` into the flat per-thread reduction buffer. -/
def bufStore {α : Type} (buf : Nat → α) (i : Nat) (v : α) : Nat → α :=
  fun j => if j = i then v else buf j

/-- An ascending loop over thread slots `0..n-1` rewriting slot `t` from
its previous contents (shape of both the init loop and of the per-thread
load/compute/store sequence of the parallel body). -/
def slotLoop {α : Type} (n : Nat) (f : Nat → α → α) (buf : Nat → α) : Nat → α :=
  (List.range n).foldl (fun b t => bufStore b t (f t (b t))) buf

/-- The final sequential combine loop: ascending slot order, folding the
slot contents into the accumulator via the cloned reduce region. -/
def combineLoop {α : Type} (comb : α → α → α) (init : α) (n : Nat)
    (buf : Nat → α) : α :=
  (List.range n).foldl (fun acc t => comb acc (buf t)) init

/-- The value produced by the rewritten program for one reduction:
buffers start as arbitrary alloca garbage `buf0`; the init loop stores the
neutral element into the `n = maxConcurrency` slots; each thread `t` folds
its slice on top of its slot; the combine loop folds the slots into the
original init value in ascending order. -/
def rewrittenLoopResult {ι : Type} (w : Nat) (k : IntReduceKind) (init : Nat)
    (body : ι → Nat) (slices : List (List ι)) (buf0 : Nat → Nat) (n : Nat) : Nat :=
  let comb := applyKind w k
  let bufInit := slotLoop n (fun _ _ => neutralElement w k) buf0
  let bufPar := slotLoop n (fun t prev => seqFold comb prev body (slices.getD t [])) bufInit
  combineLoop comb init n bufPar

theorem slotLoop_eval {α : Type} (f : Nat → α → α) (buf : Nat → α) (n t : Nat) :
    slotLoop n f buf t = if t < n then f t (buf t) else buf t := by
  induction n with
  | zero => simp [slotLoop]
  | succ n ih =>
      have hstep : slotLoop (n + 1) f buf
          = bufStore (slotLoop n f buf) n (f n (slotLoop n f buf n)) := by
        unfold slotLoop
        rw [List.range_succ, List.foldl_append, List.foldl_cons, List.foldl_nil]
      by_cases ht : t = n
      · subst ht
        rw [hstep]
        simp only [bufStore, if_pos rfl]
        rw [ih]
        simp
      · rw [hstep]
        simp only [bufStore, if_neg ht]
        rw [ih]
        by_cases h2 : t < n
        · rw [if_pos h2, if_pos (by omega)]
        · rw [if_neg h2, if_neg (by omega)]

theorem range_foldl_congr {α : Type} (g1 g2 : α → Nat → α) (n : Nat) (init : α)
    (h : ∀ acc t, t < n → g1 acc t = g2 acc t) :
    (List.range n).foldl g1 init = (List.range n).foldl g2 init := by
  induction n with
  | zero => rfl
  | succ n ih =>
      simp only [List.range_succ, List.foldl_append, List.foldl_cons, List.foldl_nil]
      rw [ih (fun acc t ht => h acc t (by omega))]
      exact h _ n (Nat.lt_succ_self n)

theorem range_foldl_getD {α β : Type} (g : α → β → α) (d : β) (l : List β) (init : α) :
    (List.range l.length).foldl (fun acc t => g acc (l.getD t d)) init
      = l.foldl g init := by
  induction l generalizing init with
  | nil => rfl
  | cons x xs ih =>
      rw [List.length_cons, List.range_succ_eq_map, List.foldl_cons, List.foldl_map]
      simp only [List.getD_cons_zero, List.getD_cons_succ]
      exact ih (g init x)

theorem seqFold_append {α ι : Type} (comb : α → α → α) (init : α) (body : ι → α)
    (l1 l2 : List ι) :
    seqFold comb init body (l1 ++ l2)
      = seqFold comb (seqFold comb init body l1) body l2 := by
  simp [seqFold, List.foldl_append]

theorem seqFold_closed {α ι : Type} {comb : α → α → α} {body : ι → α}
    {P : α → Prop} (hclosed : ∀ a b, P a → P b → P (comb a b))
    (hbody : ∀ i, P (body i)) :
    ∀ (l : List ι) (a : α), P a → P (seqFold comb a body l) := by
  intro l
  induction l with
  | nil => intro a ha; exact ha
  | cons i l ih =>
      intro a ha
      exact ih _ (hclosed _ _ ha (hbody i))

theorem comb_seqFold {α ι : Type} (comb : α → α → α) (body : ι → α)
    (hassoc : ∀ a b c, comb (comb a b) c = comb a (comb b c)) :
    ∀ (l : List ι) (a b : α),
      comb a (seqFold comb b body l) = seqFold comb (comb a b) body l := by
  intro l
  induction l with
  | nil => intro a b; rfl
  | cons i l ih =>
      intro a b
      show comb a (seqFold comb (comb b (body i)) body l)
        = seqFold comb (comb (comb a b) (body i)) body l
      rw [ih a (comb b (body i)), hassoc]

theorem foldl_slices_join {α ι : Type} (comb : α → α → α) (neutral : α)
    (body : ι → α)
    (hassoc : ∀ a b c, comb (comb a b) c = comb a (comb b c))
    (P : α → Prop) (hclosed : ∀ a b, P a → P b → P (comb a b))
    (hrid : ∀ a, P a → comb a neutral = a) (hbody : ∀ i, P (body i)) :
    ∀ (slices : List (List ι)) (init : α), P init →
      slices.foldl (fun acc s => comb acc (seqFold comb neutral body s)) init
        = seqFold comb init body slices.flatten := by
  intro slices
  induction slices with
  | nil => intro init _; rfl
  | cons s rest ih =>
      intro init hinit
      have hjoin : (s :: rest).flatten = s ++ rest.flatten := by simp
      rw [List.foldl_cons, hjoin, seqFold_append]
      have h1 : comb init (seqFold comb neutral body s) = seqFold comb init body s := by
        rw [comb_seqFold comb body hassoc, hrid init hinit]
      rw [h1]
      exact ih _ (seqFold_closed hclosed hbody s init hinit)

/-- The rewritten program's value for a single reduction equals the
sequential accumulation over the concatenation of the thread slices. -/
theorem rewrittenLoopResult_eq_seq {ι : Type} (w : Nat) (hw : 0 < w)
    (k : IntReduceKind) (init : Nat) (body : ι → Nat) (slices : List (List ι))
    (buf0 : Nat → Nat) (n : Nat) (hn : slices.length = n)
    (hinit : init < 2 ^ w) (hbody : ∀ i, body i < 2 ^ w) :
    rewrittenLoopResult w k init body slices buf0 n
      = seqFold (applyKind w k) init body slices.flatten := by
  subst hn
  unfold rewrittenLoopResult combineLoop
  refine Eq.trans (range_foldl_congr _
    (fun acc t => applyKind w k acc
      (seqFold (applyKind w k) (neutralElement w k) body (slices.getD t [])))
    _ init ?_) ?_
  · intro acc t ht
    rw [slotLoop_eval]
    rw [if_pos ht]
    rw [slotLoop_eval]
    rw [if_pos ht]
  · refine Eq.trans (range_foldl_getD
      (fun acc s => applyKind w k acc
        (seqFold (applyKind w k) (neutralElement w k) body s)) [] slices init) ?_
    exact foldl_slices_join (applyKind w k) (neutralElement w k) body
      (applyKind_assoc w k) (fun a => a < 2 ^ w)
      (fun a b ha hb => applyKind_lt w k ha hb)
      (fun a ha => applyKind_neutral_right w hw k ha) hbody slices init hinit

/-- C1: for every parallel loop accepted by `ParallelToTbb` whose
reductions are over integers (combining operation handled by
`arith::getNeutralElement`), the value produced by the rewritten program
(neutral-element init loop, explicit-parallel body writing per-thread
partials at the thread index, ascending sequential combine loop over the
`maxConcurrency` thread slots) equals the straightforward sequential
accumulation over the same data, for every reduction of the loop. -/
theorem parallelToTbb_reductions_eq_sequential {ι : Type} (w : Nat) (hw : 0 < w)
    (reds : List (IntReduceKind × Nat × (ι → Nat)))
    (slices : List (List ι)) (buf0 : Nat → Nat) (n : Nat)
    (hn : slices.length = n) (hmc : 1 < n)
    (hbounds : ∀ r ∈ reds, r.2.1 < 2 ^ w ∧ ∀ i, r.2.2 i < 2 ^ w) :
    reds.map (fun r => rewrittenLoopResult w r.1 r.2.1 r.2.2 slices buf0 n)
      = reds.map (fun r => seqFold (applyKind w r.1) r.2.1 r.2.2 slices.flatten) := by
  apply List.map_congr_left
  intro r hr
  exact rewrittenLoopResult_eq_seq w hw r.1 r.2.1 r.2.2 slices buf0 n hn
    (hbounds r hr).1 (hbounds r hr).2

set_option maxRecDepth 10000 in
/-- Witness for C1: the concrete scenario — loop over `[0, 100)`,
`maxConcurrency = 4`, one 64-bit sum-reduction starting at `0`, slices of
25 iterations per thread — yields `4950`. -/
theorem parallelToTbb_reductions_eq_sequential_witness :
    [rewrittenLoopResult 64 IntReduceKind.addi 0 (fun i => i % 2 ^ 64)
        [List.range' 0 25, List.range' 25 25, List.range' 50 25, List.range' 75 25]
        (fun _ => 7) 4]
      = [seqFold (applyKind 64 IntReduceKind.addi) 0 (fun i => i % 2 ^ 64)
          [List.range' 0 25, List.range' 25 25, List.range' 50 25,
            List.range' 75 25].flatten]
    ∧ seqFold (applyKind 64 IntReduceKind.addi) 0 (fun i => i % 2 ^ 64)
        [List.range' 0 25, List.range' 25 25, List.range' 50 25,
          List.range' 75 25].flatten = 4950 := by
  constructor
  · exact parallelToTbb_reductions_eq_sequential 64 (by norm_num)
      [(IntReduceKind.addi, 0, fun i => i % 2 ^ 64)]
      [List.range' 0 25, List.range' 25 25, List.range' 50 25, List.range' 75 25]
      (fun _ => 7) 4 rfl (by norm_num)
      (by
        intro r hr
        simp only [List.mem_singleton] at hr
        subst hr
        refine ⟨by norm_num, fun i => Nat.mod_lt _ (by norm_num)⟩)
  · decide

/-! ## ParallelToTbb: match preconditions (C2)

`ParallelToTbb::matchAndRewrite` declines (returns failure, leaving the
IR unchanged) unless all eligibility checks pass; all checks occur before
the first IR mutation, so a decline never partially rewrites. -/

/-- Kinds of ancestor operations relevant to the parent-chain walks. -/
inductive AncestorKind where
  | utilParallel
  | scfParallel
  | scfFor
  | scfWhile
  | envRegion (isParallelTagged : Bool)
  | funcOp (maxConcurrency : Option Int)
  | otherOp
deriving DecidableEq, Repr

/-- Builtin scalar type model; `isIntOrFloat` mirrors
`mlir::Type::isIntOrFloat` (integers and floats only — not `index`). -/
inductive MLIRScalarType where
  | int (width : Nat)
  | float (width : Nat)
  | index
  | complexTy
  | memrefTy
  | otherTy
deriving DecidableEq, Repr

def isIntOrFloat : MLIRScalarType → Bool
  | .int _ => true
  | .float _ => true
  | _ => false

/-- `getReduceType`: the flat per-thread buffer type (a rank-1 memref of
extent `count`) exists iff the result type is a scalar integer or float. -/
def getReduceType (t : MLIRScalarType) (count : Int) : Option (Int × MLIRScalarType) :=
  if isIntOrFloat t then some (count, t) else none

/-- The single combining operation of a reduce block, by kind.  Modelled
after the operations `mlir::arith::getNeutralElement` recognises;
`.unknownOp` stands for any operation without a derivable neutral
element. -/
inductive ReduceOpKind where
  | intOp (k : IntReduceKind)
  | addf
  | mulf
  | maxnumf
  | minnumf
  | unknownOp
deriving DecidableEq, Repr

/-- Whether `arith::getNeutralElement` succeeds on the operation. -/
def hasNeutralElement : ReduceOpKind → Bool
  | .unknownOp => false
  | _ => true

/-- A block of a reduce region: its non-terminator operations (the
terminator is implicit). -/
structure ReduceBlock where
  nonTerminatorOps : List ReduceOpKind
deriving DecidableEq, Repr

/-- `getReduceInitVal`: requires exactly one non-terminator operation in
the block and derives the neutral element from it (the result-type
parameter of the C++ function is unused in its body). -/
def getReduceInitVal (b : ReduceBlock) : Option ReduceOpKind :=
  match b.nonTerminatorOps with
  | [op] => if hasNeutralElement op then some op else none
  | _ => none

/-- A reduce region, one per reduction result. -/
structure ReduceRegion where
  blocks : List ReduceBlock
deriving DecidableEq, Repr

/-- One reduction of the loop: its result type and its reduce region. -/
structure Reduction where
  resultType : MLIRScalarType
  region : ReduceRegion
deriving DecidableEq, Repr

/-- An `scf.parallel` loop in context: the chain of ancestor operations
from the direct parent outwards, and the loop's reductions. -/
structure ScfParallelOp where
  ancestors : List AncestorKind
  reductions : List Reduction
deriving Repr

/-- `isInsideParalleRegion` (sic): the direct parent must be an
environment region carrying the parallel attribute. -/
def isInsideParalleRegion (ancestors : List AncestorKind) : Bool :=
  match ancestors.head? with
  | some (.envRegion p) => p
  | _ => false

/-- `op->getParentOfType<mlir::scf::ParallelOp>()` is non-null: some
enclosing ordinary parallel loop exists. -/
def hasEnclosingScfParallel (ancestors : List AncestorKind) : Bool :=
  ancestors.any fun a => a = .scfParallel

/-- `op->getParentOfType<mlir::func::FuncOp>()` together with the
max-concurrency attribute lookup: the nearest enclosing function, if any,
paired with its optional attribute. -/
def nearestEnclosingFunc : List AncestorKind → Option (Option Int)
  | [] => none
  | .funcOp mc :: _ => some mc
  | _ :: rest => nearestEnclosingFunc rest

/-- The per-reduction region check: a single block whose
`getReduceInitVal` succeeds. -/
def reduceRegionOk (r : Reduction) : Bool :=
  match r.region.blocks with
  | [b] => (getReduceInitVal b).isSome
  | _ => false

/-- The nearest-function / max-concurrency / reduction checks of
`ParallelToTbb::matchAndRewrite` (everything after the nesting checks),
in source order. -/
def parallelToTbbFuncCheck (op : ScfParallelOp) : Bool :=
  match nearestEnclosingFunc op.ancestors with
  | none => false
  | some mcAttr =>
    if mcAttr.getD 0 ≤ 1 then false
    else
      op.reductions.all (fun r => (getReduceType r.resultType (mcAttr.getD 0)).isSome)
        && op.reductions.all reduceRegionOk

/-- The eligibility checks of `ParallelToTbb::matchAndRewrite`, in source
order.  `false` means the pattern declines. -/
def parallelToTbbMatch (op : ScfParallelOp) : Bool :=
  if op.ancestors.head? = some .utilParallel then false
  else if !(isInsideParalleRegion op.ancestors || !hasEnclosingScfParallel op.ancestors) then
    false
  else parallelToTbbFuncCheck op

/-- Max-concurrency value read by the rewrite once the match succeeded. -/
def matchedMaxConcurrency (op : ScfParallelOp) : Int :=
  ((nearestEnclosingFunc op.ancestors).getD none).getD 0

/-- Shape of the emitted rewrite: one init loop and one combine loop of
`maxConcurrency` trips each, and one explicit-parallel construct. -/
structure ParallelRewriteShape where
  initLoopTrips : Int
  explicitParallelCount : Nat
  combineLoopTrips : Int
deriving DecidableEq, Repr

/-- `matchAndRewrite` as a whole: fires completely (`some`) or declines
(`none`, IR unchanged — never a partial rewrite). -/
def parallelToTbbApply (op : ScfParallelOp) : Option ParallelRewriteShape :=
  if parallelToTbbMatch op then
    some ⟨matchedMaxConcurrency op, 1, matchedMaxConcurrency op⟩
  else none

theorem getReduceInitVal_isSome_iff (b : ReduceBlock) :
    (getReduceInitVal b).isSome = true
      ↔ ∃ k, b.nonTerminatorOps = [k] ∧ hasNeutralElement k = true := by
  unfold getReduceInitVal
  cases hops : b.nonTerminatorOps with
  | nil => simp
  | cons k rest =>
      cases rest with
      | nil => by_cases hk : hasNeutralElement k = true <;> simp [hk]
      | cons k2 r2 => simp

theorem reduceRegionOk_iff (r : Reduction) :
    reduceRegionOk r = true
      ↔ ∃ b, r.region.blocks = [b]
          ∧ ∃ k, b.nonTerminatorOps = [k] ∧ hasNeutralElement k = true := by
  unfold reduceRegionOk
  cases hbs : r.region.blocks with
  | nil => simp
  | cons b rest =>
      cases rest with
      | nil => simp [getReduceInitVal_isSome_iff]
      | cons b2 r2 => simp

theorem parallelToTbbFuncCheck_iff (op : ScfParallelOp) :
    parallelToTbbFuncCheck op = true
      ↔ (∃ mc : Int, nearestEnclosingFunc op.ancestors = some (some mc) ∧ 1 < mc)
        ∧ (∀ r ∈ op.reductions, isIntOrFloat r.resultType = true)
        ∧ (∀ r ∈ op.reductions, ∃ b, r.region.blocks = [b]
            ∧ ∃ k, b.nonTerminatorOps = [k] ∧ hasNeutralElement k = true) := by
  unfold parallelToTbbFuncCheck
  cases hfn : nearestEnclosingFunc op.ancestors with
  | none => simp
  | some mcAttr =>
      cases mcAttr with
      | none =>
          simp only [Option.getD_some, Option.getD_none]
          rw [if_pos (by norm_num)]
          simp
      | some mc =>
          simp only [Option.getD_some]
          by_cases hmc : mc ≤ 1
          · rw [if_pos hmc]
            constructor
            · intro h
              exact absurd h (by simp)
            · rintro ⟨⟨mc2, hmc2, hgt⟩, -, -⟩
              simp only [Option.some.injEq] at hmc2
              omega
          · rw [if_neg hmc, Bool.and_eq_true, List.all_eq_true, List.all_eq_true]
            constructor
            · rintro ⟨hall1, hall2⟩
              refine ⟨⟨mc, rfl, by omega⟩, ?_, ?_⟩
              · intro r hr
                have h := hall1 r hr
                unfold getReduceType at h
                by_cases hif : isIntOrFloat r.resultType = true
                · exact hif
                · rw [if_neg hif] at h
                  simp at h
              · intro r hr
                exact (reduceRegionOk_iff r).mp (hall2 r hr)
            · rintro ⟨-, hty, hreg⟩
              refine ⟨?_, ?_⟩
              · intro r hr
                unfold getReduceType
                rw [if_pos (hty r hr)]
                rfl
              · intro r hr
                exact (reduceRegionOk_iff r).mpr (hreg r hr)

/-- C2: `ParallelToTbb` rewrites exactly when: the loop is not directly
nested in the explicit-parallel construct; its direct parent is a
"parallel"-tagged environment region or it has no enclosing ordinary
parallel loop; the nearest enclosing function carries a max-concurrency
integer attribute strictly greater than 1; every reduction result type is
a scalar integer or float; and every reduction region is a single block
containing exactly one non-terminator operation with a derivable neutral
element.  Otherwise it declines (`none`), leaving the IR unchanged. -/
theorem parallelToTbb_match_iff (op : ScfParallelOp) :
    (parallelToTbbApply op).isSome = true
      ↔ op.ancestors.head? ≠ some AncestorKind.utilParallel
        ∧ (isInsideParalleRegion op.ancestors = true
            ∨ hasEnclosingScfParallel op.ancestors = false)
        ∧ (∃ mc : Int, nearestEnclosingFunc op.ancestors = some (some mc) ∧ 1 < mc)
        ∧ (∀ r ∈ op.reductions, isIntOrFloat r.resultType = true)
        ∧ (∀ r ∈ op.reductions, ∃ b, r.region.blocks = [b]
            ∧ ∃ k, b.nonTerminatorOps = [k] ∧ hasNeutralElement k = true) := by
  have happ : (parallelToTbbApply op).isSome = parallelToTbbMatch op := by
    by_cases h : parallelToTbbMatch op = true <;> simp [parallelToTbbApply, h]
  rw [happ]
  unfold parallelToTbbMatch
  by_cases h1 : op.ancestors.head? = some AncestorKind.utilParallel
  · simp [h1]
  · rw [if_neg h1]
    by_cases h2 : isInsideParalleRegion op.ancestors = true
        ∨ hasEnclosingScfParallel op.ancestors = false
    · have hcond : (!(isInsideParalleRegion op.ancestors
          || !hasEnclosingScfParallel op.ancestors)) = false := by
        rcases h2 with h | h
        · simp [h]
        · simp [h]
      rw [hcond, if_neg Bool.false_ne_true, parallelToTbbFuncCheck_iff]
      constructor
      · rintro ⟨a, b, c⟩
        exact ⟨h1, h2, a, b, c⟩
      · rintro ⟨-, -, a, b, c⟩
        exact ⟨a, b, c⟩
    · have hA : isInsideParalleRegion op.ancestors = false := by
        cases hx : isInsideParalleRegion op.ancestors
        · rfl
        · exact absurd (Or.inl hx) h2
      have hB : hasEnclosingScfParallel op.ancestors = true := by
        cases hx : hasEnclosingScfParallel op.ancestors
        · exact absurd (Or.inr hx) h2
        · rfl
      have hcond : (!(isInsideParalleRegion op.ancestors
          || !hasEnclosingScfParallel op.ancestors)) = true := by
        simp [hA, hB]
      rw [hcond, if_pos rfl]
      constructor
      · intro h
        exact absurd h (by simp)
      · rintro ⟨-, hor, -⟩
        exact absurd hor h2

/-! ## Escape analysis (C5)

`canResultEscape` walks the users of a buffer-producing operation.  A use
tree: each user is a load, a store, a deallocation, a view-like operation
(carrying the users of its own result), or anything else. -/

/-- One use of a buffer value, together with the transitive uses of a
view-like user's own result. -/
inductive MemUse where
  | load
  | store
  | dealloc
  | view (users : List MemUse)
  | other
deriving Repr

mutual

/-- The per-user test inside `canResultEscape`'s loop: a load or store
does not escape; a deallocation is accepted only on the original
(non-aliased) allocation; a view-like user escapes iff its own result
recursively escapes; any other user escapes. -/
def escapesUse : Bool → MemUse → Bool
  | _, .load => false
  | _, .store => false
  | original, .dealloc => !original
  | _, .view users => canResultEscape false users
  | _, .other => true

/-- `canResultEscape`: does any user of the result escape? -/
def canResultEscape : Bool → List MemUse → Bool
  | _, [] => false
  | original, u :: rest => escapesUse original u || canResultEscape original rest

end

theorem canResultEscape_any (original : Bool) (users : List MemUse) :
    canResultEscape original users = users.any (escapesUse original) := by
  induction users with
  | nil => rfl
  | cons u rest ih => rw [canResultEscape, List.any_cons, ih]

/-- C5: a result escapes iff some use is neither a load, nor a store, nor
a deallocation of the original allocation (a deallocation of a derived
view escapes), nor a view-like operation whose own result recursively
does not escape. -/
theorem canResultEscape_iff (original : Bool) (users : List MemUse) :
    canResultEscape original users = true
      ↔ ∃ u ∈ users,
          u ≠ MemUse.load ∧ u ≠ MemUse.store
            ∧ ¬(original = true ∧ u = MemUse.dealloc)
            ∧ ∀ l, u = MemUse.view l → canResultEscape false l = true := by
  rw [canResultEscape_any, List.any_eq_true]
  constructor
  · rintro ⟨u, hu, hesc⟩
    refine ⟨u, hu, ?_⟩
    cases u with
    | load => exact absurd hesc (by rw [escapesUse]; simp)
    | store => exact absurd hesc (by rw [escapesUse]; simp)
    | dealloc =>
        rw [escapesUse] at hesc
        have horig : original = false := by
          cases h : original
          · rfl
          · rw [h] at hesc
            exact absurd hesc (by simp)
        refine ⟨by simp, by simp, by simp [horig], by simp⟩
    | view l =>
        rw [escapesUse] at hesc
        refine ⟨by simp, by simp, by simp, ?_⟩
        intro l2 hl2
        cases hl2
        exact hesc
    | other => refine ⟨by simp, by simp, by simp, by simp⟩
  · rintro ⟨u, hu, h1, h2, h3, h4⟩
    refine ⟨u, hu, ?_⟩
    cases u with
    | load => exact absurd rfl h1
    | store => exact absurd rfl h2
    | dealloc =>
        have horig : original = false := by
          cases h : original
          · rfl
          · exact absurd ⟨h, rfl⟩ h3
        rw [escapesUse, horig]
        rfl
    | view l =>
        rw [escapesUse]
        exact h4 l rfl
    | other => rw [escapesUse]

/-! ## HoistBufferAllocs (C3, C4) -/

/-- `getLoopInfo` result when an outermost enclosing loop was found:
whether an innermost enclosing explicit-parallel construct also exists. -/
structure LoopInfo where
  innermostParallelExists : Bool
deriving DecidableEq, Repr

/-- An offsets/sizes/strides entry of the per-thread subview. -/
inductive OfrVal where
  | const (n : Int)
  | threadIndex
deriving DecidableEq, Repr

/-- The offsets, sizes and strides of a `memref.subview`. -/
structure SubViewDesc where
  offsets : List OfrVal
  sizes : List OfrVal
  strides : List OfrVal
deriving DecidableEq, Repr

/-- A `memref.alloc` operation in context, as `HoistBufferAllocs`
inspects it. -/
structure AllocOp where
  symbolOperandCount : Nat
  users : List MemUse
  loopInfo : Option LoopInfo
  enclosingFunc : Option (Option Int)
  shape : List Int
deriving Repr

/-- What a successful hoist emits. -/
structure HoistResult where
  newShape : List Int
  erasedDeallocUsers : Nat
  subview : Option SubViewDesc
  deallocsInsertedAfterOutermostLoop : Nat
  allocAboveOutermostLoop : Bool
deriving Repr

def isDeallocUse : MemUse → Bool
  | .dealloc => true
  | _ => false

/-- The per-thread subview built inside the parallel body: offset
`threadIndex` on the new leading dimension and `0` elsewhere, size `1` on
the leading dimension and the full extent elsewhere, all strides `1`. -/
def perThreadSubView (shape : List Int) : SubViewDesc where
  offsets := OfrVal.threadIndex :: shape.map (fun _ => OfrVal.const 0)
  sizes := OfrVal.const 1 :: shape.map OfrVal.const
  strides := OfrVal.const 1 :: shape.map (fun _ => OfrVal.const 1)

/-- `HoistBufferAllocs::matchAndRewrite`, checks in source order:
symbolic operands, escape analysis, loop-nest info, enclosing function,
attribute presence under a parallel ancestor.  `none` means the pattern
declines, leaving the IR unchanged. -/
def hoistBufferAllocs (op : AllocOp) : Option HoistResult :=
  if op.symbolOperandCount ≠ 0 then none
  else if canResultEscape true op.users then none
  else
    match op.loopInfo with
    | none => none
    | some li =>
      match op.enclosingFunc with
      | none => none
      | some mcAttr =>
        if li.innermostParallelExists && mcAttr.isNone then none
        else
          some
            { newShape :=
                if li.innermostParallelExists && decide (0 < mcAttr.getD 0) then
                  mcAttr.getD 0 :: op.shape
                else op.shape
              erasedDeallocUsers := op.users.countP isDeallocUse
              subview :=
                if li.innermostParallelExists && decide (0 < mcAttr.getD 0) then
                  some (perThreadSubView op.shape)
                else none
              deallocsInsertedAfterOutermostLoop := 1
              allocAboveOutermostLoop := true }

/-- C3: for a non-escaping allocation with no symbolic operands inside a
matched loop nest: with a parallel ancestor and a positive
max-concurrency attribute the hoisted type gains one leading dimension of
extent `maxConcurrency` and a per-thread subview offset by the thread
index replaces the allocation in the parallel body; with no parallel
ancestor the allocation is hoisted above the outermost loop with its type
unchanged; with a parallel ancestor but no attribute the pattern
declines. -/
theorem hoistBufferAllocs_shape (op : AllocOp) (li : LoopInfo)
    (h0 : op.symbolOperandCount = 0)
    (h1 : canResultEscape true op.users = false)
    (h2 : op.loopInfo = some li) :
    (∀ mc : Int, op.enclosingFunc = some (some mc) →
        li.innermostParallelExists = true → 0 < mc →
        ∃ r, hoistBufferAllocs op = some r
          ∧ r.newShape = mc :: op.shape
          ∧ r.subview = some (perThreadSubView op.shape)
          ∧ r.allocAboveOutermostLoop = true)
    ∧ (li.innermostParallelExists = false →
        ∀ attr, op.enclosingFunc = some attr →
        ∃ r, hoistBufferAllocs op = some r
          ∧ r.newShape = op.shape
          ∧ r.subview = none
          ∧ r.allocAboveOutermostLoop = true)
    ∧ (li.innermostParallelExists = true → op.enclosingFunc = some none →
        hoistBufferAllocs op = none) := by
  refine ⟨?_, ?_, ?_⟩
  · intro mc henc hpar hmc
    have hres : hoistBufferAllocs op
        = some ⟨mc :: op.shape, op.users.countP isDeallocUse,
            some (perThreadSubView op.shape), 1, true⟩ := by
      simp [hoistBufferAllocs, h0, h1, h2, henc, hpar, hmc]
    exact ⟨_, hres, rfl, rfl, rfl⟩
  · intro hpar attr henc
    have hres : hoistBufferAllocs op
        = some ⟨op.shape, op.users.countP isDeallocUse, none, 1, true⟩ := by
      simp [hoistBufferAllocs, h0, h1, h2, henc, hpar]
    exact ⟨_, hres, rfl, rfl, rfl⟩
  · intro hpar henc
    simp [hoistBufferAllocs, h0, h1, h2, henc, hpar]

/-- Witness for C3 (concrete scenario 2): a `10x10` allocation inside a
loop, used only by loads and one dealloc, with no parallel ancestor and
attribute value `0`, is hoisted with shape `10x10` unchanged and no
subview. -/
theorem hoistBufferAllocs_shape_witness :
    ((⟨0, [MemUse.load, MemUse.dealloc], some ⟨false⟩, some (some 0), [10, 10]⟩ :
        AllocOp).symbolOperandCount = 0)
    ∧ canResultEscape true [MemUse.load, MemUse.dealloc] = false
    ∧ ∃ r, hoistBufferAllocs
          ⟨0, [MemUse.load, MemUse.dealloc], some ⟨false⟩, some (some 0), [10, 10]⟩
          = some r
        ∧ r.newShape = [10, 10] ∧ r.subview = none
        ∧ r.allocAboveOutermostLoop = true := by
  have hesc : canResultEscape true [MemUse.load, MemUse.dealloc] = false := by
    rw [canResultEscape, canResultEscape, canResultEscape, escapesUse, escapesUse]
    rfl
  refine ⟨rfl, hesc, ?_⟩
  exact (hoistBufferAllocs_shape
      ⟨0, [MemUse.load, MemUse.dealloc], some ⟨false⟩, some (some 0), [10, 10]⟩
      ⟨false⟩ rfl hesc rfl).2.1 rfl (some 0) rfl

/-! ## Allocation events before and after hoisting (C4)

A small statement language to count dynamic allocation events of the
hoisted buffer: the original program allocates inside the loop nest (one
event per trip), the rewritten program allocates once above the outermost
loop and deallocates once after it. -/

inductive MiniStmt where
  | alloc
  | dealloc
  | other
  | loop (trip : Nat) (body : List MiniStmt)
deriving Repr

mutual

/-- Dynamic allocation events executing one statement. -/
def allocEvents : MiniStmt → Nat
  | .alloc => 1
  | .dealloc => 0
  | .other => 0
  | .loop trip body => trip * allocEventsList body

/-- Dynamic allocation events executing a statement sequence. -/
def allocEventsList : List MiniStmt → Nat
  | [] => 0
  | s :: rest => allocEvents s + allocEventsList rest

end

/-- Wrap a statement sequence in a nest of loops with the given trip
counts (outermost first). -/
def nestLoops : List Nat → List MiniStmt → List MiniStmt
  | [], body => body
  | trip :: trips, body => [MiniStmt.loop trip (nestLoops trips body)]

theorem allocEventsList_append (l1 l2 : List MiniStmt) :
    allocEventsList (l1 ++ l2) = allocEventsList l1 + allocEventsList l2 := by
  induction l1 with
  | nil => rw [List.nil_append, allocEventsList, Nat.zero_add]
  | cons s rest ih =>
      rw [List.cons_append, allocEventsList, allocEventsList, ih, Nat.add_assoc]

theorem allocEventsList_nestLoops (trips : List Nat) (body : List MiniStmt) :
    allocEventsList (nestLoops trips body) = trips.prod * allocEventsList body := by
  induction trips with
  | nil => rw [nestLoops, List.prod_nil, Nat.one_mul]
  | cons trip trips ih =>
      rw [nestLoops, allocEventsList, allocEventsList, allocEvents, ih,
        List.prod_cons, Nat.add_zero, Nat.mul_assoc]

/-- C4: when the hoist fires, every dealloc user of the original
allocation is erased, exactly one dealloc of the hoisted buffer is
inserted after the outermost loop, and the rewritten program performs
exactly one allocation event regardless of the nest's trip counts (the
original performed one per trip). -/
theorem hoistBufferAllocs_frame (op : AllocOp) (r : HoistResult)
    (h : hoistBufferAllocs op = some r)
    (trips : List Nat) (rest : List MiniStmt)
    (hrest : allocEventsList rest = 0) :
    r.erasedDeallocUsers = op.users.countP isDeallocUse
    ∧ r.deallocsInsertedAfterOutermostLoop = 1
    ∧ allocEventsList
        (MiniStmt.alloc :: (nestLoops trips rest ++ [MiniStmt.dealloc])) = 1
    ∧ allocEventsList (nestLoops trips (MiniStmt.alloc :: rest)) = trips.prod := by
  have hfields : r.erasedDeallocUsers = op.users.countP isDeallocUse
      ∧ r.deallocsInsertedAfterOutermostLoop = 1 := by
    unfold hoistBufferAllocs at h
    split at h
    · exact absurd h (by simp)
    · split at h
      · exact absurd h (by simp)
      · split at h
        · exact absurd h (by simp)
        · split at h
          · exact absurd h (by simp)
          · split at h
            · exact absurd h (by simp)
            · rw [Option.some_inj] at h
              rw [← h]
              exact ⟨rfl, rfl⟩
  refine ⟨hfields.1, hfields.2, ?_, ?_⟩
  · rw [allocEventsList, allocEvents, allocEventsList_append,
      allocEventsList_nestLoops, hrest, allocEventsList, allocEventsList,
      allocEvents]
    omega
  · rw [allocEventsList_nestLoops, allocEventsList, allocEvents, hrest]
    omega

/-- Witness for C4: a `5x5` buffer in a doubly nested `3 x 4` loop with
one dealloc user: one allocation event after hoisting, `12` before. -/
theorem hoistBufferAllocs_frame_witness :
    ∃ r, hoistBufferAllocs
        ⟨0, [MemUse.store, MemUse.dealloc], some ⟨false⟩, some none, [5, 5]⟩
        = some r
      ∧ (r.erasedDeallocUsers
            = List.countP isDeallocUse [MemUse.store, MemUse.dealloc]
          ∧ r.deallocsInsertedAfterOutermostLoop = 1
          ∧ allocEventsList
              (MiniStmt.alloc :: (nestLoops [3, 4] [MiniStmt.other] ++ [MiniStmt.dealloc])) = 1
          ∧ allocEventsList (nestLoops [3, 4] (MiniStmt.alloc :: [MiniStmt.other]))
              = List.prod [3, 4]) := by
  have hesc : canResultEscape true [MemUse.store, MemUse.dealloc] = false := by
    rw [canResultEscape, canResultEscape, canResultEscape, escapesUse, escapesUse]
    rfl
  have hres : hoistBufferAllocs
      ⟨0, [MemUse.store, MemUse.dealloc], some ⟨false⟩, some none, [5, 5]⟩
      = some ⟨[5, 5], List.countP isDeallocUse [MemUse.store, MemUse.dealloc],
          none, 1, true⟩ := by
    simp [hoistBufferAllocs, hesc]
  refine ⟨_, hres, ?_⟩
  exact hoistBufferAllocs_frame _ _ hres [3, 4] [MiniStmt.other]
    (by rw [allocEventsList, allocEvents, allocEventsList])

/-! ## LowerParallel capture analysis (C6)

`LowerParallel::matchAndRewrite` walks every operation nested in the
explicit-parallel construct (the construct itself excluded) and
classifies each operand not defined inside the construct's region:
constant-like definitions are cloned into the outlined function, every
other such value becomes one field of the context struct, in
first-discovery order. -/

/-- An SSA value as the capture walk sees it. -/
structure CaptureValue where
  vid : Nat
  definedInside : Bool
  constantLike : Bool
  convertible : Bool
deriving DecidableEq, Repr

/-- Keep the first occurrence of every element, drop later duplicates. -/
def dedupFirst {α : Type} [DecidableEq α] : List α → List α
  | [] => []
  | x :: xs => x :: dedupFirst (xs.filter fun u => decide (u ≠ x))
termination_by l => l.length
decreasing_by
  simp only [List.length_cons]
  exact Nat.lt_succ_of_le (List.length_filter_le _ _)

theorem dedupFirst_mem {α : Type} [DecidableEq α] :
    ∀ (l : List α) (v : α), v ∈ dedupFirst l ↔ v ∈ l := by
  intro l
  generalize hn : l.length = n
  induction n using Nat.strong_induction_on generalizing l with
  | _ n ih =>
    cases l with
    | nil => intro v; rw [dedupFirst]
    | cons x xs =>
        intro v
        rw [dedupFirst]
        have hlen : (xs.filter fun u => decide (u ≠ x)).length
            < n := by
          rw [← hn, List.length_cons]
          exact Nat.lt_succ_of_le (List.length_filter_le _ _)
        simp only [List.mem_cons]
        rw [ih _ hlen _ rfl]
        constructor
        · rintro (rfl | h)
          · exact Or.inl rfl
          · exact Or.inr (List.mem_of_mem_filter h)
        · rintro (rfl | h)
          · exact Or.inl rfl
          · by_cases hv : v = x
            · exact Or.inl hv
            · exact Or.inr (List.mem_filter.mpr ⟨h, by simp [hv]⟩)

theorem dedupFirst_nodup {α : Type} [DecidableEq α] :
    ∀ l : List α, (dedupFirst l).Nodup := by
  intro l
  generalize hn : l.length = n
  induction n using Nat.strong_induction_on generalizing l with
  | _ n ih =>
    cases l with
    | nil => rw [dedupFirst]; exact List.nodup_nil
    | cons x xs =>
        rw [dedupFirst]
        have hlen : (xs.filter fun u => decide (u ≠ x)).length < n := by
          rw [← hn, List.length_cons]
          exact Nat.lt_succ_of_le (List.length_filter_le _ _)
        refine List.Nodup.cons ?_ (ih _ hlen _ rfl)
        intro hmem
        have := (dedupFirst_mem _ x).mp hmem
        have := (List.mem_filter.mp this).2
        simp at this

theorem dedupFirst_sublist {α : Type} [DecidableEq α] :
    ∀ l : List α, (dedupFirst l).Sublist l := by
  intro l
  generalize hn : l.length = n
  induction n using Nat.strong_induction_on generalizing l with
  | _ n ih =>
    cases l with
    | nil => rw [dedupFirst]
    | cons x xs =>
        rw [dedupFirst]
        have hlen : (xs.filter fun u => decide (u ≠ x)).length < n := by
          rw [← hn, List.length_cons]
          exact Nat.lt_succ_of_le (List.length_filter_le _ _)
        exact List.Sublist.cons₂ x
          ((ih _ hlen _ rfl).trans (List.filter_sublist xs))

/-- The running state of the capture walk: `contextVarsSet`,
`contextConstants`, `contextVars`. -/
structure CaptureState where
  seen : List CaptureValue
  consts : List CaptureValue
  vars : List CaptureValue
deriving Repr

/-- `addContextVar`: skip values already seen; constant-like definitions
go to the clone list, everything else is appended to the context
fields. -/
def addContextVar (st : CaptureState) (v : CaptureValue) : CaptureState :=
  if v ∈ st.seen then st
  else if v.constantLike then
    { st with seen := v :: st.seen, consts := st.consts ++ [v] }
  else
    { st with seen := v :: st.seen, vars := st.vars ++ [v] }

/-- The walk over every operand of every nested operation (in walk
order): operands defined inside the construct's region are skipped, the
rest go through `addContextVar`. -/
def collectCaptures (operands : List CaptureValue) : CaptureState :=
  operands.foldl (fun st v => if v.definedInside then st else addContextVar st v)
    ⟨[], [], []⟩

/-- A value captured as a context field: defined outside, not
constant-like. -/
def isCapturedVar (v : CaptureValue) : Bool :=
  !v.definedInside && !v.constantLike

/-- A value cloned instead of captured: defined outside, constant-like. -/
def isClonedConst (v : CaptureValue) : Bool :=
  !v.definedInside && v.constantLike

/-- Specification recursion of the walk: given the already-seen set,
compute the (constants, fields) the walk appends. -/
def goCaptures (seen : List CaptureValue) :
    List CaptureValue → List CaptureValue × List CaptureValue
  | [] => ([], [])
  | v :: rest =>
    if v.definedInside then goCaptures seen rest
    else if v ∈ seen then goCaptures seen rest
    else if v.constantLike then
      (v :: (goCaptures (v :: seen) rest).1, (goCaptures (v :: seen) rest).2)
    else
      ((goCaptures (v :: seen) rest).1, v :: (goCaptures (v :: seen) rest).2)

theorem collectCaptures_go :
    ∀ (operands : List CaptureValue) (st : CaptureState),
      (operands.foldl
          (fun st v => if v.definedInside then st else addContextVar st v) st).consts
          = st.consts ++ (goCaptures st.seen operands).1
        ∧ (operands.foldl
            (fun st v => if v.definedInside then st else addContextVar st v) st).vars
          = st.vars ++ (goCaptures st.seen operands).2 := by
  intro operands
  induction operands with
  | nil => intro st; simp [goCaptures]
  | cons v rest ih =>
      intro st
      rw [List.foldl_cons]
      by_cases hdi : v.definedInside = true
      · rw [if_pos hdi, goCaptures, if_pos hdi]
        exact ih st
      · rw [if_neg hdi, goCaptures, if_neg hdi]
        by_cases hseen : v ∈ st.seen
        · have hadd : addContextVar st v = st := by
            unfold addContextVar
            rw [if_pos hseen]
          rw [hadd, if_pos hseen]
          exact ih st
        · by_cases hcl : v.constantLike = true
          · have hadd : addContextVar st v
                = ⟨v :: st.seen, st.consts ++ [v], st.vars⟩ := by
              unfold addContextVar
              rw [if_neg hseen, if_pos hcl]
            rw [hadd, if_neg hseen, if_pos hcl]
            have h := ih ⟨v :: st.seen, st.consts ++ [v], st.vars⟩
            refine ⟨?_, h.2⟩
            rw [h.1, List.append_assoc]
            rfl
          · have hadd : addContextVar st v
                = ⟨v :: st.seen, st.consts, st.vars ++ [v]⟩ := by
              unfold addContextVar
              rw [if_neg hseen, if_neg hcl]
            rw [hadd, if_neg hseen, if_neg hcl]
            have h := ih ⟨v :: st.seen, st.consts, st.vars ++ [v]⟩
            refine ⟨h.1, ?_⟩
            rw [h.2, List.append_assoc]
            rfl

theorem goCaptures_vars_eq :
    ∀ (operands seen : List CaptureValue),
      (goCaptures seen operands).2
        = dedupFirst (operands.filter fun v => isCapturedVar v && decide (v ∉ seen)) := by
  intro operands
  induction operands with
  | nil =>
      intro seen
      rw [List.filter_nil, dedupFirst]
      rfl
  | cons v rest ih =>
      intro seen
      rw [List.filter_cons]
      by_cases hdi : v.definedInside = true
      · have hgo : (goCaptures seen (v :: rest)).2 = (goCaptures seen rest).2 := by
          rw [goCaptures, if_pos hdi]
        have hp : (isCapturedVar v && decide (v ∉ seen)) = false := by
          simp [isCapturedVar, hdi]
        rw [hgo, hp, if_neg Bool.false_ne_true]
        exact ih seen
      · by_cases hseen : v ∈ seen
        · have hgo : (goCaptures seen (v :: rest)).2 = (goCaptures seen rest).2 := by
            rw [goCaptures, if_neg hdi, if_pos hseen]
          have hp : (isCapturedVar v && decide (v ∉ seen)) = false := by
            simp [hseen]
          rw [hgo, hp, if_neg Bool.false_ne_true]
          exact ih seen
        · by_cases hcl : v.constantLike = true
          · have hgo : (goCaptures seen (v :: rest)).2
                = (goCaptures (v :: seen) rest).2 := by
              rw [goCaptures, if_neg hdi, if_neg hseen, if_pos hcl]
            have hp : (isCapturedVar v && decide (v ∉ seen)) = false := by
              simp [isCapturedVar, hcl]
            rw [hgo, hp, if_neg Bool.false_ne_true, ih (v :: seen)]
            congr 1
            apply List.filter_congr
            intro u hu
            by_cases huv : u = v
            · subst huv
              simp [isCapturedVar, hcl]
            · simp [List.mem_cons, huv]
          · have hgo : (goCaptures seen (v :: rest)).2
                = v :: (goCaptures (v :: seen) rest).2 := by
              rw [goCaptures, if_neg hdi, if_neg hseen, if_neg hcl]
            have hp : (isCapturedVar v && decide (v ∉ seen)) = true := by
              simp [isCapturedVar, hdi, hcl, hseen]
            rw [hgo, hp, if_pos rfl, dedupFirst, ih (v :: seen)]
            congr 2
            rw [List.filter_filter]
            apply List.filter_congr
            intro u hu
            by_cases huv : u = v
            · subst huv
              simp
            · simp [List.mem_cons, huv]

theorem goCaptures_consts_eq :
    ∀ (operands seen : List CaptureValue),
      (goCaptures seen operands).1
        = dedupFirst (operands.filter fun v => isClonedConst v && decide (v ∉ seen)) := by
  intro operands
  induction operands with
  | nil =>
      intro seen
      rw [List.filter_nil, dedupFirst]
      rfl
  | cons v rest ih =>
      intro seen
      rw [List.filter_cons]
      by_cases hdi : v.definedInside = true
      · have hgo : (goCaptures seen (v :: rest)).1 = (goCaptures seen rest).1 := by
          rw [goCaptures, if_pos hdi]
        have hp : (isClonedConst v && decide (v ∉ seen)) = false := by
          simp [isClonedConst, hdi]
        rw [hgo, hp, if_neg Bool.false_ne_true]
        exact ih seen
      · by_cases hseen : v ∈ seen
        · have hgo : (goCaptures seen (v :: rest)).1 = (goCaptures seen rest).1 := by
            rw [goCaptures, if_neg hdi, if_pos hseen]
          have hp : (isClonedConst v && decide (v ∉ seen)) = false := by
            simp [hseen]
          rw [hgo, hp, if_neg Bool.false_ne_true]
          exact ih seen
        · by_cases hcl : v.constantLike = true
          · have hgo : (goCaptures seen (v :: rest)).1
                = v :: (goCaptures (v :: seen) rest).1 := by
              rw [goCaptures, if_neg hdi, if_neg hseen, if_pos hcl]
            have hp : (isClonedConst v && decide (v ∉ seen)) = true := by
              simp [isClonedConst, hdi, hcl, hseen]
            rw [hgo, hp, if_pos rfl, dedupFirst, ih (v :: seen)]
            congr 2
            rw [List.filter_filter]
            apply List.filter_congr
            intro u hu
            by_cases huv : u = v
            · subst huv
              simp
            · simp [List.mem_cons, huv]
          · have hgo : (goCaptures seen (v :: rest)).1
                = (goCaptures (v :: seen) rest).1 := by
              rw [goCaptures, if_neg hdi, if_neg hseen, if_neg hcl]
            have hp : (isClonedConst v && decide (v ∉ seen)) = false := by
              simp [isClonedConst, hcl]
            rw [hgo, hp, if_neg Bool.false_ne_true, ih (v :: seen)]
            congr 1
            apply List.filter_congr
            intro u hu
            by_cases huv : u = v
            · subst huv
              simp [isClonedConst, hcl]
            · simp [List.mem_cons, huv]

theorem collectCaptures_vars (operands : List CaptureValue) :
    (collectCaptures operands).vars = dedupFirst (operands.filter isCapturedVar) := by
  unfold collectCaptures
  rw [(collectCaptures_go operands ⟨[], [], []⟩).2, goCaptures_vars_eq]
  rw [List.nil_append]
  congr 1
  apply List.filter_congr
  intro u hu
  simp

theorem collectCaptures_consts (operands : List CaptureValue) :
    (collectCaptures operands).consts = dedupFirst (operands.filter isClonedConst) := by
  unfold collectCaptures
  rw [(collectCaptures_go operands ⟨[], [], []⟩).1, goCaptures_consts_eq]
  rw [List.nil_append]
  congr 1
  apply List.filter_congr
  intro u hu
  simp

/-- What `LowerParallel` emits on success. -/
structure LowerParallelResult where
  contextFields : List CaptureValue
  clonedConstants : List CaptureValue
  fieldStores : List (Nat × CaptureValue)
  contextAllocsAtAnchor : Nat
  passedAsOpaquePointer : Bool
deriving Repr

/-- `LowerParallel::matchAndRewrite`: run the capture walk; decline if a
captured value's type does not convert; otherwise build the context
struct (one field per captured value, first-discovery order), allocate it
once at the alloca anchor, store every captured value into its field, and
pass the struct as an opaque pointer. -/
def lowerParallel (operands : List CaptureValue) : Option LowerParallelResult :=
  if (collectCaptures operands).vars.all (fun v => v.convertible) then
    some
      { contextFields := (collectCaptures operands).vars
        clonedConstants := (collectCaptures operands).consts
        fieldStores := (collectCaptures operands).vars.enum
        contextAllocsAtAnchor := 1
        passedAsOpaquePointer := true }
  else none

/-- C6: on success the context fields are exactly the operands defined
outside the construct whose definitions are not constant-like, each
exactly once, ordered by first discovery; constant-like outside
definitions are cloned, not captured; the context is allocated once at
the anchor, each captured value is stored into its field in field order,
and the struct is passed as an opaque pointer.  The pattern declines
exactly when some captured value's type does not convert. -/
theorem lowerParallel_captures (operands : List CaptureValue) :
    (∀ r, lowerParallel operands = some r →
      r.contextFields = dedupFirst (operands.filter isCapturedVar)
        ∧ (∀ v, v ∈ r.contextFields
            ↔ v ∈ operands ∧ v.definedInside = false ∧ v.constantLike = false)
        ∧ r.contextFields.Nodup
        ∧ (∀ v, v ∈ r.clonedConstants
            ↔ v ∈ operands ∧ v.definedInside = false ∧ v.constantLike = true)
        ∧ r.fieldStores = r.contextFields.enum
        ∧ r.contextAllocsAtAnchor = 1
        ∧ r.passedAsOpaquePointer = true)
    ∧ (lowerParallel operands = none
        ↔ ∃ v ∈ operands, v.definedInside = false ∧ v.constantLike = false
            ∧ v.convertible = false) := by
  have hvars := collectCaptures_vars operands
  have hconsts := collectCaptures_consts operands
  have hvmem : ∀ v, v ∈ (collectCaptures operands).vars
      ↔ v ∈ operands ∧ v.definedInside = false ∧ v.constantLike = false := by
    intro v
    rw [hvars, dedupFirst_mem, List.mem_filter]
    unfold isCapturedVar
    constructor
    · rintro ⟨h1, h2⟩
      simp only [Bool.and_eq_true, Bool.not_eq_true'] at h2
      exact ⟨h1, h2.1, h2.2⟩
    · rintro ⟨h1, h2, h3⟩
      exact ⟨h1, by simp [h2, h3]⟩
  constructor
  · intro r hr
    unfold lowerParallel at hr
    split at hr
    · rw [Option.some_inj] at hr
      subst hr
      refine ⟨hvars, hvmem, ?_, ?_, rfl, rfl, rfl⟩
      · rw [hvars]
        exact dedupFirst_nodup _
      · intro v
        rw [hconsts, dedupFirst_mem, List.mem_filter]
        unfold isClonedConst
        constructor
        · rintro ⟨h1, h2⟩
          simp only [Bool.and_eq_true, Bool.not_eq_true'] at h2
          exact ⟨h1, h2.1, h2.2⟩
        · rintro ⟨h1, h2, h3⟩
          exact ⟨h1, by simp [h2, h3]⟩
    · exact absurd hr (by simp)
  · unfold lowerParallel
    split
    · next hall =>
        constructor
        · intro h
          exact absurd h (by simp)
        · rintro ⟨v, hv, h2, h3, h4⟩
          rw [List.all_eq_true] at hall
          have hconv := hall v ((hvmem v).mpr ⟨hv, h2, h3⟩)
          rw [h4] at hconv
          exact absurd hconv (by simp)
    · next hall =>
        refine iff_of_true rfl ?_
        rw [List.all_eq_true] at hall
        push_neg at hall
        obtain ⟨v, hv, hconv⟩ := hall
        have hm := (hvmem v).mp hv
        refine ⟨v, hm.1, hm.2.1, hm.2.2, ?_⟩
        cases h : v.convertible
        · rfl
        · exact absurd h hconv

/-! ## Function-boundary ABI fixer (C7)

`fixFuncSig` rewrites every non-private function signature to
`(retValOutPtr, exceptInfoOutPtr, flattened original params) -> i32`;
`ReturnOpLowering` rewrites every `return` in a non-private function to a
store through the first block argument followed by `return 0 : i32`.
Types are modelled by one inductive covering the MLIR builtin types and
the LLVM types the lowering produces (pointers are opaque, as
`getLLVMPointerType` ignores its element type). -/

inductive Ty where
  | i (bits : Nat)
  | f32
  | f64
  | indexTy
  | ptr
  | structT (fields : List Ty)
  | arr (n : Nat) (elem : Ty)
  | memref (ranked : Bool) (shape : List Int) (elem : Ty)
  | noneTy
  | badTy

mutual

/-- Structural equality test on types (`operator==` on `mlir::Type`). -/
def beqTy : Ty → Ty → Bool
  | .i a, .i b => a == b
  | .f32, .f32 => true
  | .f64, .f64 => true
  | .indexTy, .indexTy => true
  | .ptr, .ptr => true
  | .structT fs, .structT gs => beqTyList fs gs
  | .arr n e, .arr m e2 => n == m && beqTy e e2
  | .memref r s e, .memref r2 s2 e2 => r == r2 && s == s2 && beqTy e e2
  | .noneTy, .noneTy => true
  | .badTy, .badTy => true
  | _, _ => false

def beqTyList : List Ty → List Ty → Bool
  | [], [] => true
  | a :: as1, b :: bs => beqTy a b && beqTyList as1 bs
  | _, _ => false

end

mutual

/-- `flattenType`: structs and arrays flatten recursively into their
scalar leaves; everything else is a single leaf. -/
def flattenType : Ty → List Ty
  | .structT fields => flattenTypeList fields
  | .arr n e => (List.replicate n (flattenType e)).flatten
  | t => [t]

def flattenTypeList : List Ty → List Ty
  | [] => []
  | t :: ts => flattenType t ++ flattenTypeList ts

end

/-- The MLIR-standard lowered memref descriptor struct
(allocated pointer, aligned pointer, offset, sizes, strides). -/
def memrefDescType (rank : Nat) : Ty :=
  if 0 < rank then
    .structT [.ptr, .ptr, .i 64, .arr rank (.i 64), .arr rank (.i 64)]
  else
    .structT [.ptr, .ptr, .i 64]

/-- The LLVM type converter, as configured by
`populateToLLVMAdditionalTypeConversion` (`None` converts to an `i8`
pointer); `badTy` stands for any type the converter rejects. -/
def convertType : Ty → Option Ty
  | .i b => some (.i b)
  | .f32 => some .f32
  | .f64 => some .f64
  | .indexTy => some (.i 64)
  | .ptr => some .ptr
  | .structT fields => some (.structT fields)
  | .arr n e => some (.arr n e)
  | .memref _ shape e =>
      match convertType e with
      | none => none
      | some _ => some (memrefDescType shape.length)
  | .noneTy => some .ptr
  | .badTy => none

/-- `getArrayType`: the Numba array descriptor struct
(meminfo, parent, nitems, itemsize, data, shape, strides). -/
def getArrayType (shape : List Int) : Ty :=
  if 0 < shape.length then
    .structT [.ptr, .ptr, .i 64, .i 64, .ptr,
      .arr shape.length (.i 64), .arr shape.length (.i 64)]
  else
    .structT [.ptr, .ptr, .i 64, .i 64, .ptr]

/-- One result type as it enters the return-value aggregate: array-valued
results by their array descriptor, everything else unchanged. -/
def resElem : Ty → Ty
  | .memref _ shape _ => getArrayType shape
  | t => t

/-- `convertTupleTypes`: a homogeneous tuple becomes an array of the
converted element type, otherwise a literal struct of the converted
members; fails iff some member fails to convert. -/
def convertTupleTypes (types : List Ty) : Option Ty :=
  match types with
  | [] => some (.structT [])
  | t :: ts =>
      if ts.all (fun x => beqTy x t) then
        (convertType t).map (fun ct => .arr (ts.length + 1) ct)
      else
        match (t :: ts).mapM convertType with
        | none => none
        | some cts => some (.structT cts)

/-- `getFunctionResType`: no results become an `i8` pointer; a single
result is taken directly (arrays as descriptors); several results become
a tuple. -/
def getFunctionResType (types : List Ty) : Option Ty :=
  match types with
  | [] => some .ptr
  | [t] => some (resElem t)
  | ts => convertTupleTypes (ts.map resElem)

/-- `LLVMTypeHelper::ptr`: converts the type, then wraps it in an
(opaque) LLVM pointer. -/
def typeHelperPtr (_t : Ty) : Ty := .ptr

/-- The exception-info struct `(i8*, i32, i8*)`. -/
def exceptInfoType : Ty := .structT [.ptr, .i 32, .ptr]

/-- A function signature. -/
structure FuncSig where
  isPrivate : Bool
  args : List Ty
  results : List Ty

/-- `processArg`: a memref argument contributes the flattened fields of
its array descriptor, any other argument passes through unchanged. -/
def expandArg : Ty → List Ty
  | .memref _ shape _ => flattenType (getArrayType shape)
  | t => [t]

/-- Continuation of `fixFuncSig` on the computed return type. -/
def fixFuncSigCont (f : FuncSig) : Option Ty → Option FuncSig
  | none => none
  | some origRetType =>
    match convertType origRetType with
    | none => none
    | some _ =>
      some
        { isPrivate := false
          args := typeHelperPtr origRetType
              :: typeHelperPtr (typeHelperPtr exceptInfoType)
              :: f.args.flatMap expandArg
          results := [.i 32] }

/-- `fixFuncSig`: private functions are untouched; otherwise the new
parameter list is the return-value out-pointer, then the exception-info
out-pointer, then one or more flattened parameters per original argument,
and the result becomes the `i32` status code.  Fails when the return
type cannot be converted. -/
def fixFuncSig (f : FuncSig) : Option FuncSig :=
  if f.isPrivate then some f
  else fixFuncSigCont f (getFunctionResType f.results)

/-- What `ReturnOpLowering` emits. -/
structure ReturnLowered where
  storesThroughFirstBlockArg : Bool
  returnedStatus : Int
deriving DecidableEq, Repr

/-- `ReturnOpLowering::matchAndRewrite`: declines inside private
functions; otherwise stores the converted operands (or a null pointer
when there are none) through the function's first block argument and
returns status `0 : i32`.  Fails when an operand type cannot be
converted. -/
def lowerReturnCont : Option (List Ty) → Option ReturnLowered
  | none => none
  | some _ => some ⟨true, 0⟩

def lowerReturn (funcIsPrivate : Bool) (operands : List Ty) : Option ReturnLowered :=
  if funcIsPrivate then none
  else lowerReturnCont (operands.mapM convertType)

/-- C7: private functions are left untouched by `fixFuncSig` and
`ReturnOpLowering` declines in them; for a non-private function the new
parameter list begins with the return-value out-pointer, then the
exception-info out-pointer, then the flattened original parameters, the
result type becomes `i32`, and every lowered return stores through the
first block argument and returns status `0`. -/
theorem abiFixer_signature_and_returns (f : FuncSig) (operands : List Ty) :
    (f.isPrivate = true →
      fixFuncSig f = some f ∧ lowerReturn f.isPrivate operands = none)
    ∧ (f.isPrivate = false →
        (∀ f2, fixFuncSig f = some f2 →
          ∃ retTy, getFunctionResType f.results = some retTy
            ∧ f2.args = typeHelperPtr retTy
                :: typeHelperPtr (typeHelperPtr exceptInfoType)
                :: f.args.flatMap expandArg
            ∧ f2.results = [Ty.i 32])
        ∧ (∀ r, lowerReturn f.isPrivate operands = some r →
            r.storesThroughFirstBlockArg = true ∧ r.returnedStatus = 0)) := by
  constructor
  · intro hpriv
    constructor
    · unfold fixFuncSig
      rw [if_pos hpriv]
    · unfold lowerReturn
      rw [if_pos hpriv]
  · intro hpub
    constructor
    · intro f2 h
      unfold fixFuncSig at h
      rw [if_neg (by simp [hpub])] at h
      cases hres : getFunctionResType f.results with
      | none =>
          rw [hres, fixFuncSigCont] at h
          exact absurd h (by simp)
      | some retTy =>
          rw [hres, fixFuncSigCont] at h
          cases hconv : convertType retTy with
          | none =>
              rw [hconv] at h
              simp at h
          | some ct =>
              rw [hconv] at h
              simp only [Option.some_inj] at h
              refine ⟨retTy, rfl, ?_, ?_⟩
              · rw [← h]
              · rw [← h]
    · intro r h
      unfold lowerReturn at h
      rw [if_neg (by simp [hpub])] at h
      cases hconv : operands.mapM convertType with
      | none =>
          rw [hconv, lowerReturnCont] at h
          exact absurd h (by simp)
      | some cts =>
          rw [hconv, lowerReturnCont] at h
          rw [Option.some_inj] at h
          refine ⟨?_, ?_⟩
          · rw [← h]
          · rw [← h]

/-- Witness for C7: a public function taking a ranked `3x4` array and an
`i32`, returning an `i64`: the rewritten parameter list is the two
out-pointers followed by the nine flattened descriptor fields and the
`i32`, the new result type is `i32`, and the lowered return stores
through the first block argument and returns `0`. -/
theorem abiFixer_signature_and_returns_witness :
    ((⟨false, [Ty.memref true [3, 4] (Ty.i 32), Ty.i 32], [Ty.i 64]⟩ :
        FuncSig).isPrivate = false)
    ∧ (∀ f2, fixFuncSig ⟨false, [Ty.memref true [3, 4] (Ty.i 32), Ty.i 32], [Ty.i 64]⟩
          = some f2 →
        ∃ retTy, getFunctionResType [Ty.i 64] = some retTy
          ∧ f2.args = typeHelperPtr retTy
              :: typeHelperPtr (typeHelperPtr exceptInfoType)
              :: [Ty.memref true [3, 4] (Ty.i 32), Ty.i 32].flatMap expandArg
          ∧ f2.results = [Ty.i 32])
    ∧ (∀ r, lowerReturn false [Ty.i 64] = some r →
        r.storesThroughFirstBlockArg = true ∧ r.returnedStatus = 0) := by
  refine ⟨rfl, ?_, ?_⟩
  · exact ((abiFixer_signature_and_returns
      ⟨false, [Ty.memref true [3, 4] (Ty.i 32), Ty.i 32], [Ty.i 64]⟩
      [Ty.i 64]).2 rfl).1
  · exact ((abiFixer_signature_and_returns
      ⟨false, [Ty.memref true [3, 4] (Ty.i 32), Ty.i 32], [Ty.i 64]⟩
      [Ty.i 64]).2 rfl).2

/-! ## Array-descriptor conversion thunks (C8)

`genToMemrefConversionFuncName` derives the thunk symbol name from the
memref's rank and element type only (`writeMemrefDesc` prints the rank,
not the dimensions); `getToMemrefConversionFunc` looks the name up in the
module's symbol table before creating, so creation is idempotent per
shape signature. -/

/-- The printed form of an element type (`mlir::Type::print`). -/
def tyName : Ty → String
  | .i b => "i" ++ toString b
  | .f32 => "f32"
  | .f64 => "f64"
  | .indexTy => "index"
  | .ptr => "ptr"
  | .structT _ => "struct"
  | .arr _ _ => "array"
  | .memref _ _ _ => "memref"
  | .noneTy => "none"
  | .badTy => "bad"

/-- `writeMemrefDesc`: `<rank>x<elem>` for ranked memrefs of positive
rank, `<elem>` for rank 0, `?x<elem>` for unranked. -/
def writeMemrefDesc (ranked : Bool) (shape : List Int) (elem : Ty) : String :=
  if ranked then
    (if 0 < shape.length then toString shape.length ++ "x" else "") ++ tyName elem
  else "?x" ++ tyName elem

def genToMemrefConversionFuncName (ranked : Bool) (shape : List Int) (elem : Ty) :
    String :=
  "__convert_to_memref_" ++ writeMemrefDesc ranked shape elem

/-- `getToMemrefConversionFunc`: probe the module symbol table first;
only create (and register) the thunk when the lookup misses.  Returns the
updated symbol table, the thunk's name, and whether a new function was
created. -/
def getToMemrefConversionFunc (syms : List String) (ranked : Bool)
    (shape : List Int) (elem : Ty) : List String × String × Bool :=
  if genToMemrefConversionFuncName ranked shape elem ∈ syms then
    (syms, genToMemrefConversionFuncName ranked shape elem, false)
  else
    (syms ++ [genToMemrefConversionFuncName ranked shape elem],
      genToMemrefConversionFuncName ranked shape elem, true)

/-- C8: the thunk name depends only on rank and element type; a first
conversion of a fresh shape signature creates the thunk, a second
conversion of the same rank/element-type combination reuses it without
touching the module, and exactly one thunk with that name exists. -/
theorem conversionThunk_memoized (syms : List String)
    (r1 r2 : Bool) (s1 s2 : List Int) (e1 e2 : Ty)
    (hranked : r1 = r2) (hrank : s1.length = s2.length) (helem : e1 = e2)
    (hfresh : genToMemrefConversionFuncName r1 s1 e1 ∉ syms) :
    genToMemrefConversionFuncName r1 s1 e1 = genToMemrefConversionFuncName r2 s2 e2
    ∧ getToMemrefConversionFunc syms r1 s1 e1
        = (syms ++ [genToMemrefConversionFuncName r1 s1 e1],
            genToMemrefConversionFuncName r1 s1 e1, true)
    ∧ getToMemrefConversionFunc (syms ++ [genToMemrefConversionFuncName r1 s1 e1])
          r2 s2 e2
        = (syms ++ [genToMemrefConversionFuncName r1 s1 e1],
            genToMemrefConversionFuncName r1 s1 e1, false)
    ∧ (syms ++ [genToMemrefConversionFuncName r1 s1 e1]).count
        (genToMemrefConversionFuncName r1 s1 e1) = 1 := by
  subst hranked
  subst helem
  have hname : genToMemrefConversionFuncName r1 s1 e1
      = genToMemrefConversionFuncName r1 s2 e1 := by
    unfold genToMemrefConversionFuncName writeMemrefDesc
    rw [hrank]
  refine ⟨hname, ?_, ?_, ?_⟩
  · unfold getToMemrefConversionFunc
    rw [if_neg hfresh]
  · unfold getToMemrefConversionFunc
    rw [← hname]
    rw [if_pos (List.mem_append_right _ (List.mem_singleton.mpr rfl))]
  · rw [List.count_append]
    have h0 : syms.count (genToMemrefConversionFuncName r1 s1 e1) = 0 :=
      List.count_eq_zero.mpr hfresh
    rw [h0]
    simp

/-- Witness for C8 (concrete scenario 3): two ranked `3`-dimensional
`i64` memrefs with different extents produce the same thunk name; the
first call creates it, the second reuses it. -/
theorem conversionThunk_memoized_witness :
    genToMemrefConversionFuncName true [1, 2, 3] (Ty.i 64)
        = genToMemrefConversionFuncName true [4, 5, 6] (Ty.i 64)
    ∧ getToMemrefConversionFunc [] true [1, 2, 3] (Ty.i 64)
        = ([genToMemrefConversionFuncName true [1, 2, 3] (Ty.i 64)],
            genToMemrefConversionFuncName true [1, 2, 3] (Ty.i 64), true)
    ∧ getToMemrefConversionFunc
          ([] ++ [genToMemrefConversionFuncName true [1, 2, 3] (Ty.i 64)])
          true [4, 5, 6] (Ty.i 64)
        = ([] ++ [genToMemrefConversionFuncName true [1, 2, 3] (Ty.i 64)],
            genToMemrefConversionFuncName true [1, 2, 3] (Ty.i 64), false)
    ∧ ([] ++ [genToMemrefConversionFuncName true [1, 2, 3] (Ty.i 64)]).count
        (genToMemrefConversionFuncName true [1, 2, 3] (Ty.i 64)) = 1 := by
  have h := conversionThunk_memoized [] true true [1, 2, 3] [4, 5, 6]
    (Ty.i 64) (Ty.i 64) rfl rfl rfl (by simp)
  exact ⟨h.1, h.2.1, h.2.2.1, h.2.2.2⟩

/-! ## Execution Engine (C9, C10)

`ExecutionEngine::loadModule` and `ExecutionEngine::lookup`, modelled at
the level of their control-flow outcomes.  `errValue` is a recoverable
`llvm::Expected` error carrying a string; `fatalAbort` is a process abort
(`report_fatal_error`, or `cantFail` receiving an error); `crash` is the
undefined behaviour of dereferencing a null pointer. -/

inductive EngineOutcome (α : Type) where
  | ok (val : α)
  | errValue (msg : String)
  | fatalAbort (msg : String)
  | crash
deriving Repr

/-- The inputs that decide `loadModule`'s control flow.  `addModuleOk`
stands for the `cantFail`-wrapped JIT registration steps (generator,
symbol-map definition, `addIRModule`); `initializeOk` for the
`cantFail`-wrapped `jit->initialize`. -/
structure LoadInput where
  translationOk : Bool
  dylibCreateOk : Bool
  kitrtOpen : Bool
  kitcudaSymsOk : Bool
  opencilkOpen : Bool
  opencilkSymsOk : Bool
  persOpen : Bool
  persSymsOk : Bool
  timerOpen : Bool
  timerSymsOk : Bool
  addModuleOk : Bool
  initializeOk : Bool
deriving DecidableEq, Repr

/-- `mlir::translateModuleToLLVMIR`: `none` models a null module
pointer. -/
def translateModuleToLLVMIR (inp : LoadInput) : Option Unit :=
  if inp.translationOk then some () else none

/-- `ExecutionEngine::loadModule`, in source order.  The module pointer
is dereferenced (`setCodeModel`, `setPICLevel`, `setPIELevel`,
`setDirectAccessExternalData`) before the null check that would produce
the "could not convert to LLVM IR" error value; a null pointer therefore
crashes first.  Failures to resolve the hard-coded kitsune/opencilk/timer
symbols from a successfully opened library call `report_fatal_error`
(a failed `dlopen` only logs and continues). -/
def loadModule (inp : LoadInput) : EngineOutcome Nat :=
  match translateModuleToLLVMIR inp with
  | none => .crash
  | some _ =>
    if (translateModuleToLLVMIR inp).isNone then
      .errValue "could not convert to LLVM IR"
    else if !inp.dylibCreateOk then .errValue "createJITDylib failed"
    else if !inp.addModuleOk then .fatalAbort "addIRModule failed"
    else if inp.kitrtOpen && !inp.kitcudaSymsOk then
      .fatalAbort "error finding kitcuda function in libkitrt.so"
    else if inp.opencilkOpen && !inp.opencilkSymsOk then
      .fatalAbort "error finding opencilk function in libopencilk.so"
    else if inp.persOpen && !inp.persSymsOk then
      .fatalAbort "error finding opencilk function in libopencilk-personality-c.so"
    else if inp.timerOpen && !inp.timerSymsOk then
      .fatalAbort "error finding timer func"
    else if !inp.initializeOk then .fatalAbort "initialize failed"
    else .ok 0

/-- What the JIT symbol lookup underneath `ExecutionEngine::lookup`
produced: an error, or a symbol address (`0` = null). -/
inductive LookupOutcome where
  | jitError (msg : String)
  | found (addr : Nat)
deriving DecidableEq, Repr

/-- `ExecutionEngine::lookup`: a JIT error is rewrapped into a string
error value; a null function pointer becomes a string error value too;
otherwise the non-null pointer is returned. -/
def lookup (res : LookupOutcome) : EngineOutcome Nat :=
  match res with
  | .jitError msg => .errValue msg
  | .found addr =>
      if addr ≠ 0 then .ok addr else .errValue "looked up function is null"

/-- Counterexample to C9 as stated: with a successfully translated module
and a successfully opened `libkitrt.so` whose kitcuda symbols fail to
resolve, `loadModule` aborts the process via `report_fatal_error` instead
of returning an error value. -/
theorem loadModule_aborts_on_symbol_failure :
    loadModule ⟨true, true, true, false, true, true, true, true, true, true,
        true, true⟩
      = EngineOutcome.fatalAbort "error finding kitcuda function in libkitrt.so"
    ∧ ∀ msg, loadModule ⟨true, true, true, false, true, true, true, true, true,
        true, true, true⟩ ≠ EngineOutcome.errValue msg := by
  have heval : loadModule ⟨true, true, true, false, true, true, true, true,
      true, true, true, true⟩
      = EngineOutcome.fatalAbort "error finding kitcuda function in libkitrt.so" := rfl
  refine ⟨heval, ?_⟩
  intro msg h
  rw [heval] at h
  exact EngineOutcome.noConfusion h

/-- C9 (amended): `lookup` always returns either a string error value or
a non-null function pointer, never an abort; `loadModule` reports a
dylib-creation failure as an error value, but a missing hard-coded
runtime symbol in a successfully opened library aborts the process
fatally, and a null translation result crashes before reaching the
documented error branch. -/
theorem engine_error_reporting (res : LookupOutcome) (inp : LoadInput) :
    ((∃ m, lookup res = EngineOutcome.errValue m)
        ∨ (∃ p, lookup res = EngineOutcome.ok p ∧ p ≠ 0))
    ∧ (inp.translationOk = true → inp.dylibCreateOk = false →
        loadModule inp = EngineOutcome.errValue "createJITDylib failed")
    ∧ (inp.translationOk = true → inp.dylibCreateOk = true →
        inp.addModuleOk = true → inp.kitrtOpen = true →
        inp.kitcudaSymsOk = false →
        loadModule inp
          = EngineOutcome.fatalAbort "error finding kitcuda function in libkitrt.so")
    ∧ (inp.translationOk = false → loadModule inp = EngineOutcome.crash) := by
  refine ⟨?_, ?_, ?_, ?_⟩
  · cases res with
    | jitError msg => exact Or.inl ⟨msg, rfl⟩
    | found addr =>
        by_cases h : addr = 0
        · subst h
          exact Or.inl ⟨"looked up function is null", rfl⟩
        · refine Or.inr ⟨addr, ?_, h⟩
          simp [lookup, h]
  · intro htr hdy
    unfold loadModule translateModuleToLLVMIR
    rw [htr]
    simp [hdy]
  · intro htr hdy hadd hopen hsym
    unfold loadModule translateModuleToLLVMIR
    rw [htr]
    simp [hdy, hadd, hopen, hsym]
  · intro htr
    unfold loadModule translateModuleToLLVMIR
    rw [htr]
    rfl

/-- Witness for C9 (amended): a concrete successful lookup, and the
null-translation crash branch. -/
theorem engine_error_reporting_witness :
    ((∃ m, lookup (LookupOutcome.found 5) = EngineOutcome.errValue m)
        ∨ (∃ p, lookup (LookupOutcome.found 5) = EngineOutcome.ok p ∧ p ≠ 0))
    ∧ loadModule ⟨false, true, true, true, true, true, true, true, true, true,
        true, true⟩ = EngineOutcome.crash := by
  have h := engine_error_reporting (LookupOutcome.found 5)
    ⟨false, true, true, true, true, true, true, true, true, true, true, true⟩
  exact ⟨h.1, h.2.2.2 rfl⟩

/-- C10: in `loadModule` the translated module pointer is dereferenced
(code model, PIC/PIE levels, direct external data access) before the null
check, so a null translation result crashes first and the
"could not convert to LLVM IR" error value is unreachable: no input makes
`loadModule` return it. -/
theorem loadModule_null_check_unreachable (inp : LoadInput) :
    (translateModuleToLLVMIR inp = none → loadModule inp = EngineOutcome.crash)
    ∧ loadModule inp ≠ EngineOutcome.errValue "could not convert to LLVM IR" := by
  constructor
  · intro h
    unfold loadModule
    rw [h]
  · unfold loadModule
    cases htr : translateModuleToLLVMIR inp with
    | none =>
        intro h
        exact EngineOutcome.noConfusion h
    | some u =>
        intro h
        simp only [Option.isNone_some, Bool.false_eq_true, if_false] at h
        split_ifs at h with h1 h2 h3 h4 h5 h6 h7
        all_goals
          first
          | exact EngineOutcome.noConfusion h
          | (injection h with h2x; exact absurd h2x (by decide))

/-- Witness for C10: a failing translation crashes and does not produce
the documented error value. -/
theorem loadModule_null_check_unreachable_witness :
    translateModuleToLLVMIR ⟨false, true, true, true, true, true, true, true,
        true, true, true, true⟩ = none
    ∧ loadModule ⟨false, true, true, true, true, true, true, true, true, true,
        true, true⟩ = EngineOutcome.crash
    ∧ loadModule ⟨false, true, true, true, true, true, true, true, true, true,
        true, true⟩ ≠ EngineOutcome.errValue "could not convert to LLVM IR" := by
  have h := loadModule_null_check_unreachable
    ⟨false, true, true, true, true, true, true, true, true, true, true, true⟩
  exact ⟨rfl, h.1 rfl, h.2⟩

end NumbaMlir
